import Mathlib

/-!
Verification development for the rclone-hub backend core.

Python strings are modelled as `List Char` (`Str`). Each definition below
embeds a function of the backend source (`app/services/rclone.py`,
`app/services/verify.py`, `app/services/transfers.py`,
`app/services/searches.py`, `app/db/database.py`); subprocess results and
wall-clock readings are supplied as explicit oracle parameters.
-/

abbrev Str := List Char

/-- Whitespace predicate used by Python `str.strip()` on the ASCII range. -/
def isPySpace (c : Char) : Bool :=
  c = ' ' || c = '\t' || c = '\n' || c = '\r' || c = '\x0b' || c = '\x0c'

/-- Model of Python `s.lstrip()` (whitespace). -/
def lstripSpaces (s : Str) : Str := s.dropWhile isPySpace

/-- Model of Python `s.rstrip()` (whitespace). -/
def rstripSpaces (s : Str) : Str := (s.reverse.dropWhile isPySpace).reverse

/-- Model of Python `s.strip()` (whitespace from both ends). -/
def pyStrip (s : Str) : Str := rstripSpaces (lstripSpaces s)

/-- Model of Python `s.lstrip(c)` for a single character. -/
def lstripChar (c : Char) (s : Str) : Str := s.dropWhile (· = c)

/-- Model of Python `s.rstrip(c)` for a single character. -/
def rstripChar (c : Char) (s : Str) : Str := (s.reverse.dropWhile (· = c)).reverse

/-- Model of Python `s.strip(c)` for a single character. -/
def stripChar (c : Char) (s : Str) : Str := rstripChar c (lstripChar c s)

/-- Model of Python `s.split(sep, 1)` returning `none` when `sep` is absent:
the text before the first colon and the text after it. -/
def splitFirstColon : Str → Option (Str × Str)
  | [] => none
  | a :: rest =>
    if a = ':' then some ([], rest)
    else match splitFirstColon rest with
      | none => none
      | some (r, p) => some (a :: r, p)

/-- Model of Python `s.split(sep)` (all occurrences, keeps empty pieces). -/
def splitAllChar (sep : Char) : Str → List Str
  | [] => [[]]
  | a :: rest =>
    if a = sep then [] :: splitAllChar sep rest
    else match splitAllChar sep rest with
      | [] => [[a]]
      | h :: t => (a :: h) :: t

/-- Model of `RcloneClient.split_remote`: split on the first colon, strip the
leading slashes of the path part; error (`none`) when no colon is present. -/
def split_remote (p : Str) : Option (Str × Str) :=
  match splitFirstColon p with
  | none => none
  | some (remote, path) => some (remote, lstripChar '/' path)

/-- Model of `RcloneClient.join_remote`. -/
def join_remote (base child : Str) : Option Str :=
  match split_remote base with
  | none => none
  | some (remote, path) =>
    let joined :=
      if path = [] then stripChar '/' child
      else if child = [] then path
      else rstripChar '/' path ++ '/' :: stripChar '/' child
    if joined = [] then remote ++ [':'] else remote ++ ':' :: joined

/-- Model of `pathlib.PurePosixPath(p).name` for a relative POSIX path: the
last of the parsed components, where parsing drops empty and `.` segments. -/
def pathlibName (path : Str) : Str :=
  ((splitAllChar '/' path).filter (fun s => !(s = [] || s = ['.']))).getLastD []

/-- Model of `RcloneClient.path_basename`. -/
def path_basename (p : Str) : Option Str :=
  match split_remote p with
  | none => none
  | some (_, path) => some (pathlibName path)

/-- Model of `RcloneClient.path_dirname`. -/
def path_dirname (p : Str) : Option Str :=
  match split_remote p with
  | none => none
  | some (remote, path) =>
    let normalized := stripChar '/' path
    if normalized = [] then some (remote ++ [':'])
    else
      let parts := splitAllChar '/' normalized
      if parts.length = 1 then some (remote ++ [':'])
      else some (remote ++ ':' :: List.intercalate ['/'] parts.dropLast)

/-- Composition the round-trip law talks about:
`join_remote (path_dirname P) (path_basename P)`. -/
def joinDirnameBasename (p : Str) : Option Str :=
  match path_dirname p, path_basename p with
  | some d, some b => join_remote d b
  | _, _ => none

/-- Model of `app.models.schemas.Entry` (a single listing entry). Hashes are
the entries of the Python dict `hashes`; `mod_time` is in whole seconds. -/
structure Entry where
  name : Str
  path : Str
  parentPath : Option Str := none
  isDir : Bool
  size : Int := 0
  modTime : Option Int := none
  hashes : List (Str × Str) := []
deriving DecidableEq

/-- Lookup in an association list, modelling Python `dict.get`. -/
def lookupA (m : List (Str × Str)) (k : Str) : Option Str :=
  match m with
  | [] => none
  | (a, v) :: rest => if a = k then some v else lookupA rest k

/-- Lexicographic order on strings by code point, as Python `sorted` uses. -/
def strLe (a b : Str) : Bool :=
  match a, b with
  | [], _ => true
  | _ :: _, [] => false
  | x :: xs, y :: ys => if x = y then strLe xs ys else decide (x < y)

/-- Python `sorted` on a list of strings. -/
def sortStr (l : List Str) : List Str := l.mergeSort strLe

/-- Common hash algorithms of two entries:
`set(src.hashes.keys()) & set(dst.hashes.keys())` of `verify_strict`. -/
def commonAlgos (src dst : Entry) : List Str :=
  (src.hashes.map Prod.fst).filter (fun k => (lookupA dst.hashes k).isSome)

/-- Common algorithms whose digests disagree: the `mismatch` list of
`verify_strict`. -/
def disagreeAlgos (src dst : Entry) : List Str :=
  (commonAlgos src dst).filter (fun k => !(lookupA src.hashes k = lookupA dst.hashes k))

/-- Structured form of the failure reasons `verify_strict` produces for one
source/destination file pair. -/
inductive VerifyReason where
  | sizeMismatch (path : Str)
  | checksumMismatch (algos : List Str) (path : Str)
  | modtimeMismatch (path : Str)
deriving DecidableEq

/-- Per-pair body of `verify_strict` (verify.py lines 53-65): size equality,
then the hash-intersection comparison, else the 2-second mod-time tolerance.
`none` means the pair passes. -/
def verifyPair (src dst : Entry) : Option VerifyReason :=
  if !(src.size = dst.size) then some (.sizeMismatch src.path)
  else if !(commonAlgos src dst = []) then
    if !(disagreeAlgos src dst = []) then
      some (.checksumMismatch (sortStr (disagreeAlgos src dst)) src.path)
    else none
  else
    match src.modTime, dst.modTime with
    | some a, some b => if 2 < |a - b| then some (.modtimeMismatch src.path) else none
    | _, _ => none

/-- Model of `CommandResult` (rclone.py). -/
structure CmdResult where
  args : List Str
  returncode : Int
  stdout : Str
  stderr : Str
  durationMs : Nat
  timedOut : Bool
deriving DecidableEq

/-- Attempt loop of `RcloneClient.run` (rclone.py lines 80-113), with the
outcome of each subprocess attempt supplied by the oracle `att` (a timed-out
attempt arrives as a synthetic result with returncode 124, exactly as the
`except TimeoutExpired` branch builds it). `i` is the 1-based attempt
number, `fuel` the number of attempts still allowed. Returns the result the
source returns together with the index of the last attempt executed. -/
def runCaptureFrom (att : Nat → CmdResult) : Nat → Nat → CmdResult × Nat
  | i, 0 => (att i, i)
  | i, 1 => (att i, i)
  | i, fuel + 2 =>
    let r := att i
    if r.returncode = 0 then (r, i) else runCaptureFrom att (i + 1) (fuel + 1)

/-- Model of `RcloneClient.run`: `maxRetries + 1` attempts in total. -/
def runCapture (att : Nat → CmdResult) (maxRetries : Nat) : CmdResult × Nat :=
  runCaptureFrom att 1 (maxRetries + 1)

/-- One poll iteration of the monitor loop of `run_with_progress`
(rclone.py lines 171-185): what the three checks would read at that instant. -/
structure Obs where
  cancelFlag : Bool
  pastDeadline : Bool
  exited : Bool
deriving DecidableEq

/-- How the monitor loop of `run_with_progress` left its `while True`. -/
inductive LoopExit where
  | cancelled
  | timedOut
  | exited
deriving DecidableEq

/-- Monitor loop of `run_with_progress`: at each iteration the cancel
predicate is checked first, then the deadline, then the child poll; `none`
means no iteration of the given trace terminated the loop. -/
def monitorLoop : List Obs → Option LoopExit
  | [] => none
  | o :: rest =>
    if o.cancelFlag then some .cancelled
    else if o.pastDeadline then some .timedOut
    else if o.exited then some .exited
    else monitorLoop rest

/-- Body of the timeout marker `f"Timed out after N s"` without the leading
newline. -/
def timeoutMsgBody (timeout : Nat) : Str :=
  "Timed out after ".toList ++ (toString timeout).toList ++ ['s']

/-- Body of the cancel marker without the leading newline. -/
def cancelMsgBody : Str := "Cancelled by user".toList

/-- Result assembly of `run_with_progress` (rclone.py lines 193-207) given
how the monitor loop exited, the return code of the child usable on normal
exit, and the drained stdout/stderr buffers. -/
def assembleStreamResult (args : List Str) (exitKind : LoopExit) (childRc : Int)
    (stdout stderr0 : Str) (timeout : Nat) (durationMs : Nat) : CmdResult :=
  let timedOut : Bool := decide (exitKind = LoopExit.timedOut)
  let cancelled : Bool := decide (exitKind = LoopExit.cancelled)
  let stderr1 := if timedOut then pyStrip (stderr0 ++ '\n' :: timeoutMsgBody timeout) else stderr0
  let stderr2 := if cancelled then pyStrip (stderr1 ++ '\n' :: cancelMsgBody) else stderr1
  { args := args
    returncode := if cancelled then 130 else if timedOut then 124 else childRc
    stdout := stdout
    stderr := stderr2
    durationMs := durationMs
    timedOut := timedOut }

/-- Model of `RcloneClient.run_with_progress`: the monitor loop runs over the
trace of poll observations, then the result is assembled; `none` stands for
a loop that has not yet terminated on the supplied trace. -/
def runWithProgress (args : List Str) (trace : List Obs) (childRc : Int)
    (stdout stderr0 : Str) (timeout : Nat) (durationMs : Nat) : Option CmdResult :=
  (monitorLoop trace).map
    (fun e => assembleStreamResult args e childRc stdout stderr0 timeout durationMs)

/-- Model of `JobStatus` (schemas.py). -/
inductive JobStatus where
  | queued
  | running
  | success
  | failed
  | cancelled
  | interrupted
deriving DecidableEq

/-- Model of `JobOperation` (schemas.py). -/
inductive JobOperation where
  | copy
  | move
  | delete
deriving DecidableEq

/-- Status and timestamp fields of a `Job` record as persisted by
`Database.upsert_job`; timestamps are abstract clock readings. -/
structure JobRec where
  status : JobStatus
  createdAt : Nat
  startedAt : Option Nat := none
  completedAt : Option Nat := none
deriving DecidableEq

/-- Fresh job as `TransferManager._new_job` persists it. -/
def initJob (t : Nat) : JobRec :=
  { status := .queued, createdAt := t }

/-- Persistence-point transitions of a job record in `TransferManager`:
`cancel` on a queued job, the worker draining an already-cancelled queued
job, `_run_job` switching to running, the end of `_run_delete` or
`_run_transfer` writing a terminal outcome, the crash handler of `_worker`,
and the boot sweep `Database.mark_running_jobs_interrupted`. -/
inductive JobOp where
  | cancelRequest (now : Nat)
  | workerDrainCancelled (now : Nat)
  | startRun (now : Nat)
  | finishJob (outcome : JobStatus) (now : Nat)
  | crash (now : Nat)
  | interruptSweep
deriving DecidableEq

/-- One transition step on a job record, following the corresponding
assignment site in the source. -/
def jobStep (j : JobRec) : JobOp → JobRec
  | .cancelRequest now =>
    if j.status = .queued then { j with status := .cancelled, completedAt := some now } else j
  | .workerDrainCancelled now =>
    { j with status := .cancelled, completedAt := some now }
  | .startRun now =>
    { j with status := .running, startedAt := some now }
  | .finishJob outcome now =>
    { j with status := outcome, completedAt := some now }
  | .crash now =>
    { j with status := .failed, completedAt := some now }
  | .interruptSweep =>
    if j.status = .running then { j with status := .interrupted } else j

/-- Job record after a sequence of transitions. -/
def runJobOps (ops : List JobOp) (j : JobRec) : JobRec := ops.foldl jobStep j

/-- Model of `Database.mark_running_jobs_interrupted`: rewrite every running
job to interrupted, touching nothing else. -/
def mark_running_jobs_interrupted (jobs : List JobRec) : List JobRec :=
  jobs.map (fun j => if j.status = .running then { j with status := .interrupted } else j)

/-- Outcomes of the oracle calls one iteration of the `_run_transfer` item
loop makes: the direct-copy return code, whether `_fallback_copy` succeeded
and its error text, the verifier verdict and reason, and the return code
and stderr of the post-verify `delete_path`. -/
structure ItemWorld where
  directRc : Int
  fallbackOk : Bool
  fallbackErr : Option Str
  verifyPassed : Bool
  verifyReason : Str
  deleteRc : Int
  deleteStderr : Str
deriving DecidableEq

/-- Model of `JobItemResult` fields the item loop writes. -/
structure ItemResult where
  status : JobStatus
  directAttempted : Bool
  fallbackUsed : Bool
  verifyPassed : Bool
  error : Option Str
deriving DecidableEq

/-- Verify / move-delete tail of the item loop (transfers.py lines 182-205),
shared by the direct and fallback paths. -/
def itemAfterCopy (op : JobOperation) (w : ItemWorld) (item : ItemResult) : ItemResult :=
  if !w.verifyPassed then
    { item with status := .failed,
                error := some ("verification failed: ".toList ++ w.verifyReason) }
  else
    let item2 := { item with verifyPassed := true }
    if op = .move then
      if !(w.deleteRc = 0) then
        { item2 with status := .failed,
                     error := some ("copy verified but source delete failed: ".toList
                                    ++ pyStrip w.deleteStderr) }
      else { item2 with status := .success }
    else { item2 with status := .success }

/-- One iteration of the `_run_transfer` item loop (transfers.py lines
159-206) for a single source: direct copy, fallback on non-zero direct
return code, verification, and the post-verify source delete for moves. -/
def runTransferItem (op : JobOperation) (w : ItemWorld) : ItemResult :=
  let item0 : ItemResult :=
    { status := .running, directAttempted := true, fallbackUsed := false,
      verifyPassed := false, error := none }
  if !(w.directRc = 0) then
    let item1 := { item0 with fallbackUsed := true }
    if !w.fallbackOk then
      { item1 with status := .failed, error := w.fallbackErr }
    else itemAfterCopy op w item1
  else itemAfterCopy op w item0

/-- Scan for the first closing bracket of a glob character class, returning
the text before it and the text after it. -/
def scanClose : Str → Option (Str × Str)
  | [] => none
  | a :: rest =>
    if a = ']' then some ([], rest)
    else match scanClose rest with
      | none => none
      | some (x, y) => some (a :: x, y)

/-- Locate the closing bracket for a `[` in a glob pattern with the fnmatch
rules: a leading `!` and a leading `]` belong to the class. `none` means the
class is unterminated and the `[` is literal. -/
def splitBracket (l : Str) : Option (Str × Str) :=
  match l with
  | '!' :: ']' :: l3 => (scanClose l3).map (fun p => ('!' :: ']' :: p.1, p.2))
  | '!' :: l2 => (scanClose l2).map (fun p => ('!' :: p.1, p.2))
  | ']' :: l2 => (scanClose l2).map (fun p => (']' :: p.1, p.2))
  | _ => scanClose l

/-- Membership of a character in a glob class body, with `lo-hi` ranges by
code point and a literal `-` at either edge. -/
def inSet : Str → Char → Bool
  | [], _ => false
  | [x], c => x = c
  | [x, y], c => (x = c) || (y = c)
  | x :: '-' :: y :: rest, c => (x ≤ c && c ≤ y) || inSet rest c
  | x :: rest, c => (x = c) || inSet rest c

/-- Glob class match, honouring a leading `!` negation. -/
def matchBracket (content : Str) (c : Char) : Bool :=
  match content with
  | '!' :: rest => !inSet rest c
  | _ => inSet content c

/-- Fuelled worker for shell-style glob matching (the semantics of
`fnmatch.fnmatchcase`): `*` matches any run, `?` one character, `[...]` a
class, anything else itself. Each step shrinks pattern length plus string
length, so the wrapper below always supplies enough fuel. -/
def globMatchF : Nat → Str → Str → Bool
  | 0, _, _ => false
  | _ + 1, [], s => s.isEmpty
  | fuel + 1, '*' :: p, s =>
    globMatchF fuel p s ||
      (match s with
       | [] => false
       | _ :: s2 => globMatchF fuel ('*' :: p) s2)
  | fuel + 1, '?' :: p, s =>
    (match s with
     | [] => false
     | _ :: s2 => globMatchF fuel p s2)
  | fuel + 1, '[' :: p, s =>
    (match splitBracket p with
     | some (content, rest) =>
       (match s with
        | [] => false
        | c :: s2 => matchBracket content c && globMatchF fuel rest s2)
     | none =>
       (match s with
        | [] => false
        | c :: s2 => (c = '[') && globMatchF fuel p s2))
  | fuel + 1, a :: p, s =>
    (match s with
     | [] => false
     | c :: s2 => (a = c) && globMatchF fuel p s2)

/-- Shell-style glob matching of a string against a pattern. -/
def globMatch (pat s : Str) : Bool := globMatchF (pat.length + s.length + 1) pat s

/-- Model of `fnmatch.fnmatchcase(name, pat)`: case-sensitive glob, no case
normalisation of either argument. -/
def fnmatchcase (name pat : Str) : Bool := globMatch pat name

/-- Parameters of a `SearchSession` that `_matches` consults. -/
structure SearchParams where
  filenameQuery : Str
  literal : Bool
  minSizeBytes : Option Int
deriving DecidableEq

/-- Size gate of `SearchManager._matches`: with no minimum everything
passes, directories always pass, files need `size >= min_size_bytes`. -/
def sizeGate (p : SearchParams) (e : Entry) : Bool :=
  match p.minSizeBytes with
  | none => true
  | some m => if e.isDir then true else decide (m ≤ e.size)

/-- Model of `SearchManager._matches` (searches.py lines 221-232). -/
def searchMatches (p : SearchParams) (e : Entry) : Bool :=
  let nameOk :=
    if p.literal then decide (e.name = p.filenameQuery)
    else fnmatchcase e.name p.filenameQuery
  nameOk && sizeGate p e

/-- Query normalisation of `SearchManager.create`:
`filename_query.strip() or "*"`. -/
def createQuery (q : Str) : Str :=
  let s := pyStrip q
  if s = [] then ['*'] else s

/-- Status carried by a scan `done` event. -/
inductive DoneStatus where
  | success
  | cancelled
  | failed
deriving DecidableEq

/-- Model of the three search event shapes (schemas.py). -/
inductive SEvent where
  | progress (seq : Nat) (currentDir : Str) (scannedDirs matchedCount : Nat)
  | result (seq : Nat) (entry : Entry)
  | done (seq : Nat) (status : DoneStatus) (scannedDirs matchedCount : Nat) (error : Option Str)
deriving DecidableEq

/-- Sequence number of an event. -/
def SEvent.seqOf : SEvent → Nat
  | .progress s _ _ _ => s
  | .result s _ => s
  | .done s _ _ _ _ => s

/-- Whether an event is a `done` event. -/
def SEvent.isDone : SEvent → Bool
  | .done _ _ _ _ _ => true
  | _ => false

/-- Mutable state of one `SearchSession`, plus `inTable`: whether the session
is still in `SearchManager.sessions` (emits check `session.id not in
self.sessions`). Timestamps are abstract clock readings. -/
structure SessionState where
  seq : Nat := 0
  scannedDirs : Nat := 0
  matchedCount : Nat := 0
  cancelRequested : Bool := false
  done : Bool := false
  events : List SEvent := []
  doneAt : Option Nat := none
  lastPolledAt : Nat
  inTable : Bool := true
deriving DecidableEq

/-- Session as `SearchManager.create` builds it. -/
def initSession (t : Nat) : SessionState := { lastPolledAt := t }

/-- Operations that mutate a session: the three emit helpers (searches.py
lines 123-162), the `scanned_dirs` bump of `_run_search`, `cancel`, and the
janitor or `stop` removing the session from the table. -/
inductive SessionOp where
  | emitProgress (currentDir : Str)
  | emitResult (entry : Entry)
  | emitDone (status : DoneStatus) (error : Option Str) (now : Nat)
  | bumpScannedDirs
  | requestCancel
  | removeFromTable
deriving DecidableEq

/-- One session mutation, with the drop-silently guard of each emit helper. -/
def sessionStep (s : SessionState) : SessionOp → SessionState
  | .emitProgress dir =>
    if !s.inTable || s.done then s
    else { s with seq := s.seq + 1,
                  events := s.events ++ [.progress (s.seq + 1) dir s.scannedDirs s.matchedCount] }
  | .emitResult e =>
    if !s.inTable || s.done then s
    else { s with matchedCount := s.matchedCount + 1, seq := s.seq + 1,
                  events := s.events ++ [.result (s.seq + 1) e] }
  | .emitDone st err now =>
    if !s.inTable || s.done then s
    else { s with done := true, doneAt := some now, seq := s.seq + 1,
                  events := s.events ++ [.done (s.seq + 1) st s.scannedDirs s.matchedCount err] }
  | .bumpScannedDirs => { s with scannedDirs := s.scannedDirs + 1 }
  | .requestCancel => { s with cancelRequested := true }
  | .removeFromTable => { s with inTable := false }

/-- Session state after a sequence of mutations. -/
def runSession (ops : List SessionOp) (s : SessionState) : SessionState :=
  ops.foldl sessionStep s

/-- Model of `SearchEventsResponse`. -/
structure PollResponse where
  events : List SEvent
  done : Bool
  nextSeq : Nat
deriving DecidableEq

/-- Model of `SearchManager.poll` (searches.py lines 89-96): `none` in the
table is an unknown id and raises `KeyError`; otherwise `last_polled_at` is
updated and the events with `seq > after_seq` are returned with the `done`
flag and `next_seq = session.seq`. -/
def pollSession (table : Option SessionState) (afterSeq now : Nat) :
    Except Unit (PollResponse × SessionState) :=
  match table with
  | none => .error ()
  | some s =>
    let s2 := { s with lastPolledAt := now }
    .ok ({ events := s.events.filter (fun e => decide (afterSeq < e.seqOf)),
           done := s.done, nextSeq := s.seq }, s2)

/-! Theorems. -/

/-- C2: for a move item, a final per-item status of success implies the
direct stage was attempted, verification passed, and the post-verify
`delete_path` of the source returned zero; an item is never marked success
when the source delete returned non-zero. (That a zero-exit `rclone
deletefile`/`delete` removes the source, making a later `stat` fail, is a
property of the external driver binary, not of this code.) -/
theorem move_success_requires_verified_delete (w : ItemWorld) :
    ((runTransferItem .move w).status = .success →
      (runTransferItem .move w).directAttempted = true ∧
      (runTransferItem .move w).verifyPassed = true ∧
      w.deleteRc = 0) ∧
    (w.deleteRc ≠ 0 → (runTransferItem .move w).status ≠ .success) := by
  unfold runTransferItem itemAfterCopy
  constructor
  · intro h
    by_cases hd : w.directRc = 0 <;> by_cases hf : w.fallbackOk <;>
      by_cases hv : w.verifyPassed = true <;> by_cases hdel : w.deleteRc = 0 <;>
      simp_all
  · intro hdel h
    by_cases hd : w.directRc = 0 <;> by_cases hf : w.fallbackOk <;>
      by_cases hv : w.verifyPassed = true <;> simp_all

/-- Witness for C2 at a concrete world where the move item succeeds. -/
theorem move_success_requires_verified_delete_witness :
    (runTransferItem .move ⟨0, false, none, true, [], 0, []⟩).directAttempted = true ∧
    (runTransferItem .move ⟨0, false, none, true, [], 0, []⟩).verifyPassed = true ∧
    (0 : Int) = 0 :=
  (move_success_requires_verified_delete ⟨0, false, none, true, [], 0, []⟩).1 (by decide)

theorem runCaptureFrom_spec (att : Nat → CmdResult) :
    ∀ fuel i,
      (runCaptureFrom att i (fuel + 1)).1 = att (runCaptureFrom att i (fuel + 1)).2 ∧
      i ≤ (runCaptureFrom att i (fuel + 1)).2 ∧
      (runCaptureFrom att i (fuel + 1)).2 ≤ i + fuel ∧
      (∀ k, i ≤ k → k < (runCaptureFrom att i (fuel + 1)).2 → (att k).returncode ≠ 0) ∧
      ((∀ k, i ≤ k → k ≤ i + fuel → (att k).returncode ≠ 0) →
        (runCaptureFrom att i (fuel + 1)).2 = i + fuel) := by
  intro fuel
  induction fuel with
  | zero =>
    intro i
    refine ⟨rfl, le_rfl, ?_, ?_, ?_⟩
    · show i ≤ i + 0
      omega
    · intro k h1 h2
      have h2' : k < i := h2
      omega
    · intro _
      show i = i + 0
      omega
  | succ n ih =>
    intro i
    by_cases h0 : (att i).returncode = 0
    · have hr : runCaptureFrom att i (n + 2) = (att i, i) := by
        simp [runCaptureFrom, h0]
      refine ⟨by simp [hr], by simp [hr], by simp [hr], ?_, ?_⟩
      · intro k hk1 hk2
        rw [hr] at hk2
        omega
      · intro hall
        exact absurd h0 (hall i le_rfl (by omega))
    · have hr : runCaptureFrom att i (n + 2) = runCaptureFrom att (i + 1) (n + 1) := by
        simp [runCaptureFrom, h0]
      obtain ⟨ih1, ih2, ih3, ih4, ih5⟩ := ih (i + 1)
      refine ⟨by rw [hr]; exact ih1, by rw [hr]; omega, by rw [hr]; omega, ?_, ?_⟩
      · intro k hk1 hk2
        rw [hr] at hk2
        rcases Nat.eq_or_lt_of_le hk1 with heq | hlt
        · simpa [← heq] using h0
        · exact ih4 k hlt hk2
      · intro hall
        rw [hr]
        have : (runCaptureFrom att (i + 1) (n + 1)).2 = i + 1 + n :=
          ih5 (fun k hk1 hk2 => hall k (by omega) (by omega))
        omega

/-- C6: in capture mode with retry budget `maxRetries`, a zero-exit attempt
returns immediately (in particular a first-attempt success runs exactly one
attempt); every retried attempt follows a non-zero prior attempt (a
synthetic timeout arrives as returncode 124, which is non-zero); at most
`maxRetries + 1` attempts run; and when every attempt is non-zero the
result of the final attempt is returned. -/
theorem run_capture_retry_spec (att : Nat → CmdResult) (maxRetries : Nat) :
    ((att 1).returncode = 0 → runCapture att maxRetries = (att 1, 1)) ∧
    (runCapture att maxRetries).2 ≤ maxRetries + 1 ∧
    (runCapture att maxRetries).1 = att (runCapture att maxRetries).2 ∧
    (∀ k, 2 ≤ k → k ≤ (runCapture att maxRetries).2 → (att (k - 1)).returncode ≠ 0) ∧
    ((∀ k, 1 ≤ k → k ≤ maxRetries + 1 → (att k).returncode ≠ 0) →
      runCapture att maxRetries = (att (maxRetries + 1), maxRetries + 1)) := by
  obtain ⟨h1, h2, h3, h4, h5⟩ := runCaptureFrom_spec att maxRetries 1
  have H1 : (runCapture att maxRetries).1 = att (runCapture att maxRetries).2 := h1
  have H3 : (runCapture att maxRetries).2 ≤ 1 + maxRetries := h3
  have H4 : ∀ k, 1 ≤ k → k < (runCapture att maxRetries).2 → (att k).returncode ≠ 0 := h4
  refine ⟨?_, by omega, H1, ?_, ?_⟩
  · intro h0
    cases maxRetries with
    | zero => rfl
    | succ n =>
      show runCaptureFrom att 1 (n + 2) = (att 1, 1)
      simp [runCaptureFrom, h0]
  · intro k hk1 hk2
    exact H4 (k - 1) (by omega) (by omega)
  · intro hall
    have hj : (runCapture att maxRetries).2 = maxRetries + 1 := by
      have h' : (runCapture att maxRetries).2 = 1 + maxRetries :=
        h5 (fun k hk1 hk2 => hall k hk1 (by omega))
      omega
    have hr : (runCapture att maxRetries).1 = att (maxRetries + 1) := by
      rw [H1, hj]
    calc runCapture att maxRetries
        = ((runCapture att maxRetries).1, (runCapture att maxRetries).2) := rfl
      _ = (att (maxRetries + 1), maxRetries + 1) := by rw [hj, hr]

/-- Witness for C6: a first attempt that exits zero is returned immediately
as the result of attempt 1. -/
theorem run_capture_retry_spec_witness :
    runCapture (fun _ => ⟨[], 0, [], [], 7, false⟩) 1 = (⟨[], 0, [], [], 7, false⟩, 1) :=
  (run_capture_retry_spec (fun _ => ⟨[], 0, [], [], 7, false⟩) 1).1 (by decide)

/-- C9: in glob mode, an empty or whitespace-only query is replaced by `*`
at creation; name matching is case-sensitive shell-style glob (witnessed by
the two spec examples); with a minimum size set, a directory matches purely
by name while a file additionally needs `size >= min_size_bytes`. -/
theorem search_glob_mode_spec :
    (∀ q : Str, (∀ c ∈ q, isPySpace c = true) → createQuery q = ['*']) ∧
    (fnmatchcase "small.txt".toList "*.txt".toList = true ∧
     fnmatchcase "SMALL.TXT".toList "SMALL.TXT".toList = true ∧
     fnmatchcase "small.txt".toList "SMALL.TXT".toList = false) ∧
    (∀ (p : SearchParams) (e : Entry) (m : Int),
      p.literal = false → p.minSizeBytes = some m →
      (e.isDir = true → (searchMatches p e = true ↔ fnmatchcase e.name p.filenameQuery = true)) ∧
      (e.isDir = false →
        (searchMatches p e = true ↔
          fnmatchcase e.name p.filenameQuery = true ∧ m ≤ e.size))) := by
  refine ⟨?_, by refine ⟨by decide, by decide, by decide⟩, ?_⟩
  · intro q hq
    have h1 : lstripSpaces q = [] := List.dropWhile_eq_nil_iff.mpr hq
    simp [createQuery, pyStrip, h1, rstripSpaces]
  · intro p e m hlit hmin
    constructor
    · intro hdir
      simp [searchMatches, hlit, sizeGate, hmin, hdir]
    · intro hdir
      simp [searchMatches, hlit, sizeGate, hmin, hdir]

/-- Witness for C9 at concrete inputs: a whitespace query, a matching file
large enough for the size gate, and a matching directory below it. -/
theorem search_glob_mode_spec_witness :
    createQuery " \t".toList = ['*'] ∧
    (searchMatches ⟨"*.txt".toList, false, some 5⟩
        { name := "small.txt".toList, path := "r:root/small.txt".toList,
          isDir := false, size := 9 } = true ↔
      fnmatchcase "small.txt".toList "*.txt".toList = true ∧ (5 : Int) ≤ 9) ∧
    (searchMatches ⟨"*.txt".toList, false, some 5⟩
        { name := "sub.txt".toList, path := "r:root/sub.txt".toList,
          isDir := true, size := 0 } = true ↔
      fnmatchcase "sub.txt".toList "*.txt".toList = true) := by
  refine ⟨search_glob_mode_spec.1 " \t".toList (by decide), ?_, ?_⟩
  · exact (search_glob_mode_spec.2.2 ⟨"*.txt".toList, false, some 5⟩
      { name := "small.txt".toList, path := "r:root/small.txt".toList,
        isDir := false, size := 9 } 5 rfl rfl).2 rfl
  · exact (search_glob_mode_spec.2.2 ⟨"*.txt".toList, false, some 5⟩
      { name := "sub.txt".toList, path := "r:root/sub.txt".toList,
        isDir := true, size := 0 } 5 rfl rfl).1 rfl

/-- C10: with `literal=true` the name matches only by exact string equality
(no glob interpretation of `*`, `?` or classes), and the size gate is the
same as in glob mode; the concrete conjuncts show a literal `*` query not
matching the name `x` while matching the name `*` itself. -/
theorem search_literal_mode_spec :
    (∀ (p : SearchParams) (e : Entry), p.literal = true →
      (searchMatches p e = true ↔ e.name = p.filenameQuery ∧ sizeGate p e = true)) ∧
    searchMatches ⟨"*".toList, true, none⟩
      { name := "x".toList, path := "r:x".toList, isDir := false, size := 1 } = false ∧
    searchMatches ⟨"*".toList, true, none⟩
      { name := "*".toList, path := "r:*".toList, isDir := false, size := 1 } = true := by
  refine ⟨?_, by decide, by decide⟩
  intro p e hlit
  simp [searchMatches, hlit]

/-- Witness for C10 at a concrete literal session and entry. -/
theorem search_literal_mode_spec_witness :
    searchMatches ⟨"a.txt".toList, true, some 3⟩
      { name := "a.txt".toList, path := "r:a.txt".toList, isDir := false, size := 4 } = true ↔
    "a.txt".toList = "a.txt".toList ∧
      sizeGate ⟨"a.txt".toList, true, some 3⟩
        { name := "a.txt".toList, path := "r:a.txt".toList, isDir := false, size := 4 } = true :=
  search_literal_mode_spec.1 ⟨"a.txt".toList, true, some 3⟩
    { name := "a.txt".toList, path := "r:a.txt".toList, isDir := false, size := 4 } rfl

/-- Terminal statuses of the original C1 claim minus `interrupted`: the ones
whose transitions all set `completed_at`. -/
def terminalSetsCompleted (j : JobRec) : Prop :=
  (j.status = .success ∨ j.status = .failed ∨ j.status = .cancelled) → j.completedAt ≠ none

theorem jobStep_terminalSetsCompleted (j : JobRec) (op : JobOp)
    (h : terminalSetsCompleted j) : terminalSetsCompleted (jobStep j op) := by
  cases op with
  | cancelRequest now =>
    by_cases hq : j.status = .queued
    · simp [jobStep, hq, terminalSetsCompleted]
    · simp [jobStep, hq, terminalSetsCompleted] at h ⊢
      exact h
  | workerDrainCancelled now => simp [jobStep, terminalSetsCompleted]
  | startRun now => simp [jobStep, terminalSetsCompleted]
  | finishJob outcome now => simp [jobStep, terminalSetsCompleted]
  | crash now => simp [jobStep, terminalSetsCompleted]
  | interruptSweep =>
    by_cases hr : j.status = .running
    · simp [jobStep, hr, terminalSetsCompleted]
    · simp [jobStep, hr, terminalSetsCompleted] at h ⊢
      exact h

theorem runJobOps_terminalSetsCompleted (ops : List JobOp) (j : JobRec)
    (h : terminalSetsCompleted j) : terminalSetsCompleted (runJobOps ops j) := by
  induction ops generalizing j with
  | nil => exact h
  | cons op rest ih => exact ih (jobStep j op) (jobStep_terminalSetsCompleted j op h)

/-- C1 (amended): along the engine transitions, every job whose status is
success, failed or cancelled has a non-null `completed_at`; the boot sweep
`mark_running_jobs_interrupted` leaves no job running and rewrites a running
job to `interrupted` while leaving `completed_at` untouched — so the
original claim does not extend to `interrupted` (see the counterexample). -/
theorem job_terminal_completedAt (ops : List JobOp) (t : Nat) :
    (((runJobOps ops (initJob t)).status = .success ∨
      (runJobOps ops (initJob t)).status = .failed ∨
      (runJobOps ops (initJob t)).status = .cancelled) →
      (runJobOps ops (initJob t)).completedAt ≠ none) ∧
    (∀ (jobs : List JobRec) (j : JobRec),
      j ∈ mark_running_jobs_interrupted jobs → j.status ≠ .running) ∧
    (∀ j : JobRec, j.status = .running →
      mark_running_jobs_interrupted [j] = [{ j with status := .interrupted }]) := by
  refine ⟨?_, ?_, ?_⟩
  · exact runJobOps_terminalSetsCompleted ops (initJob t) (by simp [terminalSetsCompleted, initJob])
  · intro jobs j hj
    simp only [mark_running_jobs_interrupted, List.mem_map] at hj
    obtain ⟨a, _, ha⟩ := hj
    by_cases hr : a.status = .running
    · simp [hr] at ha
      simp [← ha]
    · simp [hr] at ha
      simp [← ha, hr]
  · intro j hr
    simp [mark_running_jobs_interrupted, hr]

/-- Witness for C1 (amended): a job that is queued, started, then finished
successfully has a `completed_at`; the sweep rewrites a concrete running
job to interrupted. -/
theorem job_terminal_completedAt_witness :
    (runJobOps [.startRun 1, .finishJob .success 2] (initJob 0)).completedAt ≠ none ∧
    mark_running_jobs_interrupted
        [{ status := .running, createdAt := 0, startedAt := some 1, completedAt := none }] =
      [{ status := .interrupted, createdAt := 0, startedAt := some 1, completedAt := none }] := by
  have h := job_terminal_completedAt [.startRun 1, .finishJob .success 2] 0
  exact ⟨h.1 (by decide),
    h.2.2 { status := .running, createdAt := 0, startedAt := some 1, completedAt := none } rfl⟩

/-- Counterexample to C1 as stated: a queued job that starts running and is
then rewritten by the boot-recovery sweep has status `interrupted` with
`completed_at` still null, violating
`status ∈ [success, failed, cancelled, interrupted] implies completed_at not null`. -/
theorem interrupted_null_completedAt_cex :
    (runJobOps [.startRun 1, .interruptSweep] (initJob 0)).status = .interrupted ∧
    (runJobOps [.startRun 1, .interruptSweep] (initJob 0)).completedAt = none := by
  decide

theorem strLe_total : ∀ a b : Str, (strLe a b || strLe b a) = true := by
  intro a
  induction a with
  | nil => intro b; simp [strLe]
  | cons x xs ih =>
    intro b
    cases b with
    | nil => simp [strLe]
    | cons y ys =>
      by_cases hxy : x = y
      · subst hxy
        simpa [strLe] using ih ys
      · rcases lt_or_gt_of_ne hxy with h | h
        · simp [strLe, hxy, h]
        · simp [strLe, hxy, Ne.symm hxy, h, not_lt_of_gt h]

theorem strLe_trans : ∀ a b c : Str, strLe a b = true → strLe b c = true → strLe a c = true := by
  intro a
  induction a with
  | nil => intro b c _ _; simp [strLe]
  | cons x xs ih =>
    intro b c hab hbc
    cases b with
    | nil => simp [strLe] at hab
    | cons y ys =>
      cases c with
      | nil => simp [strLe] at hbc
      | cons z zs =>
        by_cases hxy : x = y
        · subst hxy
          by_cases hyz : x = z
          · subst hyz
            simp [strLe] at hab hbc ⊢
            exact ih ys zs hab hbc
          · simp [strLe, hyz] at hbc ⊢
            exact hbc
        · by_cases hyz : y = z
          · subst hyz
            simp [strLe, hxy] at hab ⊢
            exact hab
          · simp [strLe, hxy] at hab
            simp [strLe, hyz] at hbc
            have hxz : x < z := lt_trans hab hbc
            simp [strLe, ne_of_lt hxz, hxz]

/-- C3: for a source/destination file pair with equal sizes, strict
verification with a non-empty hash-algorithm intersection fails exactly
when some common algorithm disagrees, and then reports the sorted list of
disagreeing algorithms; with an empty intersection and both mod-times it
fails exactly when the mod-times differ by more than 2 seconds; with an
empty intersection and a missing mod-time the pair passes. -/
theorem verify_strict_pair_spec (src dst : Entry) (hsize : src.size = dst.size) :
    (commonAlgos src dst ≠ [] →
      ((verifyPair src dst = none ↔
         ∀ a ∈ commonAlgos src dst, lookupA src.hashes a = lookupA dst.hashes a) ∧
       (disagreeAlgos src dst ≠ [] →
         verifyPair src dst =
           some (.checksumMismatch (sortStr (disagreeAlgos src dst)) src.path) ∧
         List.Pairwise (fun a b => strLe a b = true) (sortStr (disagreeAlgos src dst)) ∧
         (sortStr (disagreeAlgos src dst)).Perm (disagreeAlgos src dst)))) ∧
    (∀ a b : Int, commonAlgos src dst = [] → src.modTime = some a → dst.modTime = some b →
      (verifyPair src dst = none ↔ |a - b| ≤ 2)) ∧
    (commonAlgos src dst = [] → (src.modTime = none ∨ dst.modTime = none) →
      verifyPair src dst = none) := by
  refine ⟨?_, ?_, ?_⟩
  · intro hc
    constructor
    · by_cases hd : disagreeAlgos src dst = []
      · have hver : verifyPair src dst = none := by
          simp [verifyPair, hsize, hc, hd]
        rw [hver]
        simp only [disagreeAlgos] at hd
        have hall := List.filter_eq_nil_iff.mp hd
        constructor
        · intro _ a ha
          have h2 := hall a ha
          simpa using h2
        · intro _
          rfl
      · have hver : verifyPair src dst =
            some (.checksumMismatch (sortStr (disagreeAlgos src dst)) src.path) := by
          simp [verifyPair, hsize, hc, hd]
        rw [hver]
        simp only [reduceCtorEq, false_iff]
        intro hall
        apply hd
        simp only [disagreeAlgos]
        rw [List.filter_eq_nil_iff]
        intro a ha
        simp [hall a ha]
    · intro hd
      refine ⟨by simp [verifyPair, hsize, hc, hd], ?_, ?_⟩
      · exact List.sorted_mergeSort strLe_trans strLe_total _
      · exact List.mergeSort_perm _ strLe
  · intro a b hc hsa hsb
    by_cases h2 : 2 < |a - b|
    · simp only [verifyPair, hsize, hc]
      simp [hsa, hsb, h2]
    · have h2' : |a - b| ≤ 2 := not_lt.mp h2
      simp only [verifyPair, hsize, hc]
      simp [hsa, hsb, h2, h2']
  · intro hc hmod
    rcases hmod with h | h
    · cases hdst : dst.modTime <;> simp [verifyPair, hsize, hc, h, hdst]
    · cases hsrc : src.modTime <;> simp [verifyPair, hsize, hc, h, hsrc]

/-- Witness for C3: two same-size entries sharing algorithm `m` with
digests `x` and `y` fail with the sorted disagreeing-algorithm report. -/
theorem verify_strict_pair_spec_witness :
    verifyPair
        { name := ['f'], path := ['p'], isDir := false, size := 1, hashes := [(['m'], ['x'])] }
        { name := ['f'], path := ['q'], isDir := false, size := 1, hashes := [(['m'], ['y'])] } =
      some (.checksumMismatch
        (sortStr (disagreeAlgos
          { name := ['f'], path := ['p'], isDir := false, size := 1, hashes := [(['m'], ['x'])] }
          { name := ['f'], path := ['q'], isDir := false, size := 1, hashes := [(['m'], ['y'])] }))
        ['p']) ∧
    List.Pairwise (fun a b => strLe a b = true)
      (sortStr (disagreeAlgos
        { name := ['f'], path := ['p'], isDir := false, size := 1, hashes := [(['m'], ['x'])] }
        { name := ['f'], path := ['q'], isDir := false, size := 1, hashes := [(['m'], ['y'])] })) ∧
    (sortStr (disagreeAlgos
        { name := ['f'], path := ['p'], isDir := false, size := 1, hashes := [(['m'], ['x'])] }
        { name := ['f'], path := ['q'], isDir := false, size := 1, hashes := [(['m'], ['y'])] })).Perm
      (disagreeAlgos
        { name := ['f'], path := ['p'], isDir := false, size := 1, hashes := [(['m'], ['x'])] }
        { name := ['f'], path := ['q'], isDir := false, size := 1, hashes := [(['m'], ['y'])] }) :=
  ((verify_strict_pair_spec
      { name := ['f'], path := ['p'], isDir := false, size := 1, hashes := [(['m'], ['x'])] }
      { name := ['f'], path := ['q'], isDir := false, size := 1, hashes := [(['m'], ['y'])] }
      (by decide)).1 (by decide)).2 (by decide)

/-- Invariant of a session: `seq` counts the events, event sequence numbers
are exactly `1, 2, ...` in order, a done session has `done_at` set and a
single final done event, a live session has no done event and no
`done_at`. -/
def sessionInv (s : SessionState) : Prop :=
  s.seq = s.events.length ∧
  s.events.map SEvent.seqOf = List.range' 1 s.events.length ∧
  (s.done = true → s.doneAt ≠ none ∧
    (∃ e, s.events.getLast? = some e ∧ e.isDone = true) ∧
    s.events.dropLast.all (fun x => !x.isDone) = true) ∧
  (s.done = false → s.events.all (fun x => !x.isDone) = true ∧ s.doneAt = none)

theorem map_seqOf_concat (s : SessionState) (e : SEvent)
    (h1 : s.seq = s.events.length)
    (h2 : s.events.map SEvent.seqOf = List.range' 1 s.events.length)
    (he : e.seqOf = s.seq + 1) :
    (s.events ++ [e]).map SEvent.seqOf = List.range' 1 (s.events ++ [e]).length := by
  rw [List.map_append, h2, List.length_append]
  simp only [List.map_cons, List.map_nil, List.length_cons, List.length_nil]
  rw [List.range'_concat]
  congr 1
  simp [he, h1]
  omega

theorem sessionStep_inv (s : SessionState) (op : SessionOp) (h : sessionInv s) :
    sessionInv (sessionStep s op) := by
  obtain ⟨h1, h2, h3, h4⟩ := h
  cases op with
  | emitProgress dir =>
    by_cases hg : (!s.inTable || s.done) = true
    · simpa [sessionStep, hg] using ⟨h1, h2, h3, h4⟩
    · have hdone : s.done = false := by
        rcases Bool.or_eq_false_iff.mp (Bool.of_not_eq_true hg) with ⟨_, hd⟩
        exact hd
      obtain ⟨hall, hdAt⟩ := h4 hdone
      refine ⟨?_, ?_, ?_, ?_⟩ <;> simp only [sessionStep, hg, if_false, Bool.false_eq_true]
      · simp [h1]
      · exact map_seqOf_concat s _ h1 h2 rfl
      · intro hcontra
        simp [hdone] at hcontra
      · intro _
        constructor
        · rw [List.all_append, hall]
          simp [SEvent.isDone]
        · exact hdAt
  | emitResult e =>
    by_cases hg : (!s.inTable || s.done) = true
    · simpa [sessionStep, hg] using ⟨h1, h2, h3, h4⟩
    · have hdone : s.done = false := by
        rcases Bool.or_eq_false_iff.mp (Bool.of_not_eq_true hg) with ⟨_, hd⟩
        exact hd
      obtain ⟨hall, hdAt⟩ := h4 hdone
      refine ⟨?_, ?_, ?_, ?_⟩ <;> simp only [sessionStep, hg, if_false, Bool.false_eq_true]
      · simp [h1]
      · exact map_seqOf_concat s _ h1 h2 rfl
      · intro hcontra
        simp [hdone] at hcontra
      · intro _
        constructor
        · rw [List.all_append, hall]
          simp [SEvent.isDone]
        · exact hdAt
  | emitDone st err now =>
    by_cases hg : (!s.inTable || s.done) = true
    · simpa [sessionStep, hg] using ⟨h1, h2, h3, h4⟩
    · have hdone : s.done = false := by
        rcases Bool.or_eq_false_iff.mp (Bool.of_not_eq_true hg) with ⟨_, hd⟩
        exact hd
      obtain ⟨hall, hdAt⟩ := h4 hdone
      refine ⟨?_, ?_, ?_, ?_⟩ <;> simp only [sessionStep, hg, if_false, Bool.false_eq_true]
      · simp [h1]
      · exact map_seqOf_concat s _ h1 h2 rfl
      · intro _
        refine ⟨by simp, ⟨_, List.getLast?_concat _, rfl⟩, ?_⟩
        simp [List.dropLast_concat, hall]
      · intro hcontra
        simp at hcontra
  | bumpScannedDirs => exact ⟨h1, h2, h3, h4⟩
  | requestCancel => exact ⟨h1, h2, h3, h4⟩
  | removeFromTable => exact ⟨h1, h2, h3, h4⟩

theorem initSession_inv (t : Nat) : sessionInv (initSession t) := by
  refine ⟨rfl, rfl, ?_, ?_⟩
  · intro h
    simp [initSession] at h
  · intro _
    exact ⟨rfl, rfl⟩

theorem runSession_inv (ops : List SessionOp) (s : SessionState) (h : sessionInv s) :
    sessionInv (runSession ops s) := by
  induction ops generalizing s with
  | nil => exact h
  | cons op rest ih => exact ih (sessionStep s op) (sessionStep_inv s op h)

theorem sessionStep_done_frozen (s : SessionState) (op : SessionOp) (h : s.done = true) :
    (sessionStep s op).events = s.events ∧ (sessionStep s op).done = true := by
  cases op <;> simp [sessionStep, h]

theorem runSession_done_frozen (ops : List SessionOp) (s : SessionState) (h : s.done = true) :
    (runSession ops s).events = s.events := by
  induction ops generalizing s with
  | nil => rfl
  | cons op rest ih =>
    have h2 := sessionStep_done_frozen s op h
    show (runSession rest (sessionStep s op)).events = s.events
    rw [ih (sessionStep s op) h2.2, h2.1]

/-- C7: in every state a session can reach, the event sequence numbers are
exactly `1, 2, ...` (consecutive appends differ by exactly +1, starting at
1); once `done` is set, `done_at` is set, the last event is the single done
event, and no later operation ever appends another event. -/
theorem scan_seq_discipline (ops : List SessionOp) (t : Nat) :
    ((runSession ops (initSession t)).events.map SEvent.seqOf =
      List.range' 1 (runSession ops (initSession t)).events.length) ∧
    ((runSession ops (initSession t)).done = true →
      (runSession ops (initSession t)).doneAt ≠ none ∧
      (∃ e, (runSession ops (initSession t)).events.getLast? = some e ∧ e.isDone = true) ∧
      (runSession ops (initSession t)).events.dropLast.all (fun x => !x.isDone) = true ∧
      (∀ ops2 : List SessionOp,
        (runSession ops2 (runSession ops (initSession t))).events =
          (runSession ops (initSession t)).events)) := by
  have hinv := runSession_inv ops (initSession t) (initSession_inv t)
  obtain ⟨h1, h2, h3, _⟩ := hinv
  refine ⟨h2, ?_⟩
  intro hd
  obtain ⟨ha, hb, hc⟩ := h3 hd
  exact ⟨ha, hb, hc, fun ops2 => runSession_done_frozen ops2 _ hd⟩

/-- Witness for C7: a session that emits one progress event and then a done
event has events numbered `[1, 2]`, a set `done_at`, and a final done
event. -/
theorem scan_seq_discipline_witness :
    ((runSession [SessionOp.emitProgress [], SessionOp.emitDone .success none 5]
        (initSession 0)).events.map SEvent.seqOf =
      List.range' 1 (runSession [SessionOp.emitProgress [], SessionOp.emitDone .success none 5]
        (initSession 0)).events.length) ∧
    (runSession [SessionOp.emitProgress [], SessionOp.emitDone .success none 5]
        (initSession 0)).doneAt ≠ none ∧
    (∃ e, (runSession [SessionOp.emitProgress [], SessionOp.emitDone .success none 5]
        (initSession 0)).events.getLast? = some e ∧ e.isDone = true) := by
  have h := scan_seq_discipline [SessionOp.emitProgress [], SessionOp.emitDone .success none 5] 0
  have h2 := h.2 (by decide)
  exact ⟨h.1, h2.1, h2.2.1⟩

/-- C8: polling a reachable session returns exactly the events with
`seq > after_seq` (they are the filter of the event log), in ascending
`seq` order, together with the current `done` flag and `next_seq` equal to
the session's `seq` (an upper bound for every returned event), and the
session's `last_polled_at` becomes the poll instant; polling an unknown id
is the `KeyError` branch. -/
theorem scan_poll_spec (ops : List SessionOp) (t afterSeq now : Nat) :
    (pollSession (some (runSession ops (initSession t))) afterSeq now =
      .ok ({ events := (runSession ops (initSession t)).events.filter
               (fun e => decide (afterSeq < e.seqOf)),
             done := (runSession ops (initSession t)).done,
             nextSeq := (runSession ops (initSession t)).seq },
           { runSession ops (initSession t) with lastPolledAt := now })) ∧
    (∀ e : SEvent,
      e ∈ (runSession ops (initSession t)).events.filter (fun e => decide (afterSeq < e.seqOf)) ↔
        (e ∈ (runSession ops (initSession t)).events ∧ afterSeq < e.seqOf)) ∧
    List.Pairwise (fun a b => a.seqOf < b.seqOf)
      ((runSession ops (initSession t)).events.filter (fun e => decide (afterSeq < e.seqOf))) ∧
    (∀ e ∈ (runSession ops (initSession t)).events.filter (fun e => decide (afterSeq < e.seqOf)),
      e.seqOf ≤ (runSession ops (initSession t)).seq) ∧
    pollSession none afterSeq now = .error () := by
  obtain ⟨h1, h2, _, _⟩ := runSession_inv ops (initSession t) (initSession_inv t)
  refine ⟨rfl, ?_, ?_, ?_, rfl⟩
  · intro e
    rw [List.mem_filter]
    simp
  · have hpw : List.Pairwise (fun a b => SEvent.seqOf a < SEvent.seqOf b)
        (runSession ops (initSession t)).events := by
      have := List.pairwise_lt_range' 1 (runSession ops (initSession t)).events.length 1
      rw [← h2] at this
      exact List.pairwise_map.mp this
    exact List.Pairwise.sublist (List.filter_sublist _) hpw
  · intro e he
    have hmem : e ∈ (runSession ops (initSession t)).events := List.mem_of_mem_filter he
    have hseq : e.seqOf ∈ List.range' 1 (runSession ops (initSession t)).events.length := by
      rw [← h2]
      exact List.mem_map_of_mem SEvent.seqOf hmem
    obtain ⟨i, hi, hx⟩ := List.mem_range'.mp hseq
    rw [h1]
    omega

/-- Witness for C8 at a concrete session with three events polled with
cursor 1: the done flag and events 2 and 3 come back. -/
theorem scan_poll_spec_witness :
    (pollSession (some (runSession
        [SessionOp.emitProgress [], SessionOp.emitResult { name := ['f'], path := ['p'], isDir := false },
         SessionOp.emitDone .success none 9] (initSession 0))) 1 7 =
      .ok ({ events := (runSession
               [SessionOp.emitProgress [], SessionOp.emitResult { name := ['f'], path := ['p'], isDir := false },
                SessionOp.emitDone .success none 9] (initSession 0)).events.filter
                 (fun e => decide (1 < e.seqOf)),
             done := (runSession
               [SessionOp.emitProgress [], SessionOp.emitResult { name := ['f'], path := ['p'], isDir := false },
                SessionOp.emitDone .success none 9] (initSession 0)).done,
             nextSeq := (runSession
               [SessionOp.emitProgress [], SessionOp.emitResult { name := ['f'], path := ['p'], isDir := false },
                SessionOp.emitDone .success none 9] (initSession 0)).seq },
           { runSession
               [SessionOp.emitProgress [], SessionOp.emitResult { name := ['f'], path := ['p'], isDir := false },
                SessionOp.emitDone .success none 9] (initSession 0) with lastPolledAt := 7 })) ∧
    (∀ e ∈ (runSession
        [SessionOp.emitProgress [], SessionOp.emitResult { name := ['f'], path := ['p'], isDir := false },
         SessionOp.emitDone .success none 9] (initSession 0)).events.filter
          (fun e => decide (1 < e.seqOf)),
      e.seqOf ≤ (runSession
        [SessionOp.emitProgress [], SessionOp.emitResult { name := ['f'], path := ['p'], isDir := false },
         SessionOp.emitDone .success none 9] (initSession 0)).seq) := by
  have h := scan_poll_spec
    [SessionOp.emitProgress [], SessionOp.emitResult { name := ['f'], path := ['p'], isDir := false },
     SessionOp.emitDone .success none 9] 0 1 7
  exact ⟨h.1, h.2.2.2.1⟩

theorem suffix_dropWhile_append (p : Char → Bool) (y : Str) (c : Char) (w' : Str)
    (hc : p c = false) :
    (c :: w') <:+ List.dropWhile p (y ++ c :: w') := by
  induction y with
  | nil => simp [List.dropWhile, hc]
  | cons a y ih =>
    by_cases hpa : p a = true
    · simpa [List.dropWhile, hpa] using ih
    · simp only [List.cons_append, List.dropWhile, hpa]
      exact List.suffix_append (a :: y) (c :: w')

theorem rstripSpaces_eq_self (l : Str) (d : Char) (hl : l.getLast? = some d)
    (hd : isPySpace d = false) : rstripSpaces l = l := by
  unfold rstripSpaces
  have h1 : l.reverse.head? = some d := by rw [List.head?_reverse]; exact hl
  cases hrev : l.reverse with
  | nil => rw [hrev] at h1; simp at h1
  | cons a rest =>
    rw [hrev] at h1
    injection h1 with h1
    subst h1
    rw [List.dropWhile_cons_of_neg (by simp [hd])]
    rw [← hrev, List.reverse_reverse]

theorem getLast?_of_suffix (w z : Str) (h : w <:+ z) (hw : w ≠ []) :
    z.getLast? = w.getLast? := by
  obtain ⟨u, rfl⟩ := h
  rw [List.getLast?_append, List.getLast?_eq_getLast w hw]
  simp

/-- A marker line appended to a buffer survives Python `strip`: the marker
body stays a suffix, provided its first and last characters are not
whitespace. -/
theorem suffix_pyStrip_marker (x w : Str) (hne : w ≠ [])
    (hhead : ∀ c, w.head? = some c → isPySpace c = false)
    (hlast : ∀ d, w.getLast? = some d → isPySpace d = false) :
    w <:+ pyStrip (x ++ '\n' :: w) := by
  cases w with
  | nil => cases hne rfl
  | cons c w' =>
    have hc : isPySpace c = false := hhead c rfl
    have h1 : (c :: w') <:+ List.dropWhile isPySpace ((x ++ ['\n']) ++ c :: w') :=
      suffix_dropWhile_append isPySpace (x ++ ['\n']) c w' hc
    unfold pyStrip lstripSpaces
    rw [show x ++ '\n' :: c :: w' = (x ++ ['\n']) ++ c :: w' by simp]
    have hz : rstripSpaces (List.dropWhile isPySpace ((x ++ ['\n']) ++ c :: w')) =
        List.dropWhile isPySpace ((x ++ ['\n']) ++ c :: w') := by
    -- the stripped tail keeps the non-space last character of the marker
      apply rstripSpaces_eq_self _ ((c :: w').getLast (by simp))
      · rw [getLast?_of_suffix _ _ h1 (by simp)]
        exact List.getLast?_eq_getLast _ (by simp)
      · exact hlast _ (List.getLast?_eq_getLast _ (by simp))
    rw [hz]
    exact h1

theorem monitorLoop_isSome (trace : List Obs)
    (h : ∃ o ∈ trace, o.cancelFlag = true ∨ o.pastDeadline = true ∨ o.exited = true) :
    (monitorLoop trace).isSome = true := by
  induction trace with
  | nil => simp at h
  | cons o rest ih =>
    by_cases h1 : o.cancelFlag = true
    · simp [monitorLoop, h1]
    · by_cases h2 : o.pastDeadline = true
      · simp [monitorLoop, h1, h2]
      · by_cases h3 : o.exited = true
        · simp [monitorLoop, h1, h2, h3]
        · simp only [monitorLoop, h1, h2, h3, if_false, Bool.false_eq_true]
          apply ih
          rcases h with ⟨o2, ho2, htrig⟩
          rcases List.mem_cons.mp ho2 with rfl | hm
          · rcases htrig with h | h | h <;> simp_all
          · exact ⟨o2, hm, htrig⟩

/-- C5: streaming mode always returns a result once any poll observes a
trigger (cancel, deadline or child exit) and never raises for cancel or
timeout; when the monitor loop exits on cancel the returncode is 130 and
the stderr ends with the cancel marker; when it exits on the deadline the
returncode is 124 and the stderr ends with the timeout marker; on normal
exit the returncode is the child's. -/
theorem run_with_progress_spec (args : List Str) (trace : List Obs) (childRc : Int)
    (stdout stderr0 : Str) (timeout durationMs : Nat) :
    ((∃ o ∈ trace, o.cancelFlag = true ∨ o.pastDeadline = true ∨ o.exited = true) →
      (runWithProgress args trace childRc stdout stderr0 timeout durationMs).isSome = true) ∧
    (monitorLoop trace = some .cancelled →
      ∃ r, runWithProgress args trace childRc stdout stderr0 timeout durationMs = some r ∧
        r.returncode = 130 ∧ cancelMsgBody <:+ r.stderr) ∧
    (monitorLoop trace = some .timedOut →
      ∃ r, runWithProgress args trace childRc stdout stderr0 timeout durationMs = some r ∧
        r.returncode = 124 ∧ timeoutMsgBody timeout <:+ r.stderr) ∧
    (monitorLoop trace = some .exited →
      ∃ r, runWithProgress args trace childRc stdout stderr0 timeout durationMs = some r ∧
        r.returncode = childRc) := by
  refine ⟨?_, ?_, ?_, ?_⟩
  · intro h
    have hs := monitorLoop_isSome trace h
    unfold runWithProgress
    cases hml : monitorLoop trace with
    | none => rw [hml] at hs; simp at hs
    | some e => rfl
  · intro hm
    refine ⟨assembleStreamResult args .cancelled childRc stdout stderr0 timeout durationMs,
      by unfold runWithProgress; rw [hm]; rfl, rfl, ?_⟩
    show cancelMsgBody <:+ pyStrip (stderr0 ++ '\n' :: cancelMsgBody)
    refine suffix_pyStrip_marker stderr0 cancelMsgBody (by decide) ?_ ?_
    · intro c hc
      have hC : cancelMsgBody.head? = some 'C' := rfl
      rw [hC] at hc
      injection hc with hc
      subst hc
      decide
    · intro d hd
      have hr : cancelMsgBody.getLast? = some 'r' := by decide
      rw [hr] at hd
      injection hd with hd
      subst hd
      decide
  · intro hm
    refine ⟨assembleStreamResult args .timedOut childRc stdout stderr0 timeout durationMs,
      by unfold runWithProgress; rw [hm]; rfl, rfl, ?_⟩
    show timeoutMsgBody timeout <:+ pyStrip (stderr0 ++ '\n' :: timeoutMsgBody timeout)
    refine suffix_pyStrip_marker stderr0 (timeoutMsgBody timeout) (by simp [timeoutMsgBody]) ?_ ?_
    · intro c hc
      have hT : (timeoutMsgBody timeout).head? = some 'T' := rfl
      rw [hT] at hc
      injection hc with hc
      subst hc
      decide
    · intro d hd
      have hs : (timeoutMsgBody timeout).getLast? = some 's' := List.getLast?_concat _
      rw [hs] at hd
      injection hd with hd
      subst hd
      decide
  · intro hm
    exact ⟨assembleStreamResult args .exited childRc stdout stderr0 timeout durationMs,
      by unfold runWithProgress; rw [hm]; rfl, rfl⟩

/-- Witness for C5: a trace whose second poll observes the cancel predicate
true yields returncode 130 with the cancel marker at the end of stderr. -/
theorem run_with_progress_spec_witness :
    ∃ r, runWithProgress [] [⟨false, false, false⟩, ⟨true, false, false⟩] 0 [] ['e'] 30 1 =
        some r ∧ r.returncode = 130 ∧ cancelMsgBody <:+ r.stderr :=
  (run_with_progress_spec [] [⟨false, false, false⟩, ⟨true, false, false⟩] 0 [] ['e'] 30 1).2.1
    (by decide)

theorem dropWhile_eq_self_of_head (p : Char → Bool) (s : Str)
    (h : ∀ c, s.head? = some c → p c = false) : s.dropWhile p = s := by
  cases s with
  | nil => rfl
  | cons a rest => exact List.dropWhile_cons_of_neg (by simp [h a rfl])

theorem head?_not_of_not_mem (c : Char) (s : Str) (h : c ∉ s) :
    ∀ d, s.head? = some d → ¬d = c := by
  intro d hd heq
  cases s with
  | nil => simp at hd
  | cons a s2 =>
    injection hd with hd
    subst hd
    subst heq
    exact h (List.mem_cons_self _ _)

theorem lstripChar_eq_self_of_head (c : Char) (s : Str)
    (h : ∀ d, s.head? = some d → ¬d = c) : lstripChar c s = s := by
  apply dropWhile_eq_self_of_head
  intro d hd
  simp [h d hd]

theorem rstripChar_eq_self_of_getLast (c : Char) (s : Str)
    (h : ∀ d, s.getLast? = some d → ¬d = c) : rstripChar c s = s := by
  unfold rstripChar
  rw [dropWhile_eq_self_of_head _ s.reverse ?_, List.reverse_reverse]
  intro d hd
  rw [List.head?_reverse] at hd
  simp [h d hd]

theorem stripChar_eq_self_of_not_mem (c : Char) (s : Str) (h : c ∉ s) :
    stripChar c s = s := by
  unfold stripChar
  rw [lstripChar_eq_self_of_head c s (head?_not_of_not_mem c s h)]
  exact rstripChar_eq_self_of_getLast c s
    (fun d hd => head?_not_of_not_mem c s.reverse (by simpa using h) d
      (by rw [List.head?_reverse]; exact hd))

theorem splitFirstColon_append (R rest : Str) (hR : ':' ∉ R) :
    splitFirstColon (R ++ ':' :: rest) = some (R, rest) := by
  induction R with
  | nil => simp [splitFirstColon]
  | cons a R ih =>
    have ha : ¬a = ':' := fun heq => hR (by simp [heq])
    have hR2 : ':' ∉ R := fun hm => hR (List.mem_cons_of_mem a hm)
    simp [splitFirstColon, ha, ih hR2]

theorem split_remote_append (R q : Str) (hR : ':' ∉ R)
    (hq : ∀ d, q.head? = some d → ¬d = '/') :
    split_remote (R ++ ':' :: q) = some (R, q) := by
  unfold split_remote
  rw [splitFirstColon_append R q hR]
  simp [lstripChar_eq_self_of_head '/' q hq]

theorem splitAllChar_no_sep (c : Char) (s : Str) (h : c ∉ s) :
    splitAllChar c s = [s] := by
  induction s with
  | nil => rfl
  | cons a rest ih =>
    have ha : ¬a = c := fun heq => h (by simp [heq])
    have h2 : c ∉ rest := fun hm => h (List.mem_cons_of_mem a hm)
    simp [splitAllChar, ha, ih h2]

theorem splitAllChar_append_sep (c : Char) (s t : Str) (h : c ∉ s) :
    splitAllChar c (s ++ c :: t) = s :: splitAllChar c t := by
  induction s with
  | nil => simp [splitAllChar]
  | cons a rest ih =>
    have ha : ¬a = c := fun heq => h (by simp [heq])
    have h2 : c ∉ rest := fun hm => h (List.mem_cons_of_mem a hm)
    simp [splitAllChar, ha, ih h2]

theorem splitAllChar_intercalate : ∀ segs : List Str, segs ≠ [] →
    (∀ s ∈ segs, '/' ∉ s) →
    splitAllChar '/' (List.intercalate ['/'] segs) = segs := by
  intro segs
  induction segs with
  | nil => intro hne _; cases hne rfl
  | cons s rest ih =>
    intro _ h
    cases rest with
    | nil =>
      rw [show List.intercalate ['/'] [s] = s by simp [List.intercalate]]
      exact splitAllChar_no_sep '/' s (h s (by simp))
    | cons b r2 =>
      rw [show List.intercalate ['/'] (s :: b :: r2) =
            s ++ '/' :: List.intercalate ['/'] (b :: r2) by
          simp [List.intercalate, List.intersperse]]
      rw [splitAllChar_append_sep '/' s _ (h s (by simp))]
      rw [ih (by simp) (fun x hx => h x (by simp [hx]))]

theorem intercalate_head (s : Str) (rest : List Str) (hs : s ≠ []) :
    (List.intercalate ['/'] (s :: rest)).head? = s.head? := by
  cases rest with
  | nil => simp [List.intercalate]
  | cons b r2 =>
    rw [show List.intercalate ['/'] (s :: b :: r2) =
          s ++ '/' :: List.intercalate ['/'] (b :: r2) by
        simp [List.intercalate, List.intersperse]]
    rw [List.head?_append]
    cases s with
    | nil => cases hs rfl
    | cons a s2 => rfl

theorem intercalate_head_not_slash (s : Str) (rest : List Str) (hs : s ≠ [])
    (hslash : '/' ∉ s) :
    ∀ d, (List.intercalate ['/'] (s :: rest)).head? = some d → ¬d = '/' := by
  intro d hd
  rw [intercalate_head s rest hs] at hd
  exact head?_not_of_not_mem '/' s hslash d hd

theorem intercalate_getLast : ∀ segs : List Str, segs ≠ [] →
    (∀ s ∈ segs, s ≠ [] ∧ '/' ∉ s) →
    ∃ d, (List.intercalate ['/'] segs).getLast? = some d ∧ ¬d = '/' := by
  intro segs
  induction segs with
  | nil => intro hne _; cases hne rfl
  | cons s rest ih =>
    intro _ h
    cases rest with
    | nil =>
      obtain ⟨hs, hslash⟩ := h s (by simp)
      refine ⟨s.getLast hs, ?_, ?_⟩
      · rw [show List.intercalate ['/'] [s] = s by simp [List.intercalate]]
        exact List.getLast?_eq_getLast s hs
      · intro heq
        exact hslash (heq ▸ List.getLast_mem hs)
    | cons b r2 =>
      obtain ⟨d, hd, hds⟩ := ih (by simp) (fun x hx => h x (by simp [hx]))
      refine ⟨d, ?_, hds⟩
      rw [show List.intercalate ['/'] (s :: b :: r2) =
            s ++ '/' :: List.intercalate ['/'] (b :: r2) by
          simp [List.intercalate, List.intersperse]]
      rw [List.getLast?_append]
      have h2 : ('/' :: List.intercalate ['/'] (b :: r2)).getLast? = some d := by
        rw [show ('/' :: List.intercalate ['/'] (b :: r2)) =
              ['/'] ++ List.intercalate ['/'] (b :: r2) from rfl]
        rw [List.getLast?_append, hd]
        rfl
      rw [h2]
      rfl

theorem pathlibName_intercalate (segs : List Str) (hne : segs ≠ [])
    (h : ∀ s ∈ segs, s ≠ [] ∧ s ≠ ['.'] ∧ '/' ∉ s) :
    pathlibName (List.intercalate ['/'] segs) = segs.getLast hne := by
  unfold pathlibName
  rw [splitAllChar_intercalate segs hne (fun s hs => (h s hs).2.2)]
  rw [List.filter_eq_self.mpr ?_]
  · rw [List.getLastD_eq_getLast?, List.getLast?_eq_getLast segs hne]
    rfl
  · intro s hs
    obtain ⟨h1, h2, _⟩ := h s hs
    simp [h1, h2]

theorem intercalate_concat : ∀ (init : List Str) (last : Str), init ≠ [] →
    List.intercalate ['/'] (init ++ [last]) =
      List.intercalate ['/'] init ++ '/' :: last := by
  intro init
  induction init with
  | nil => intro last hne; cases hne rfl
  | cons s rest ih =>
    intro last _
    cases rest with
    | nil => simp [List.intercalate, List.intersperse]
    | cons b r2 =>
      have ih2 := ih last (by simp)
      simp only [List.cons_append] at ih2 ⊢
      rw [show List.intercalate ['/'] (s :: b :: (r2 ++ [last])) =
            s ++ '/' :: List.intercalate ['/'] (b :: (r2 ++ [last])) by
          simp [List.intercalate, List.intersperse]]
      rw [ih2]
      rw [show List.intercalate ['/'] (s :: b :: r2) =
            s ++ '/' :: List.intercalate ['/'] (b :: r2) by
          simp [List.intercalate, List.intersperse]]
      simp

theorem roundTrip_single (R s : Str) (hR : ':' ∉ R) (hs1 : s ≠ []) (hs2 : s ≠ ['.'])
    (hs3 : '/' ∉ s) :
    joinDirnameBasename (R ++ ':' :: s) = some (R ++ ':' :: s) := by
  have hsr : split_remote (R ++ ':' :: s) = some (R, s) :=
    split_remote_append R s hR (head?_not_of_not_mem '/' s hs3)
  have hstrip : stripChar '/' s = s := stripChar_eq_self_of_not_mem '/' s hs3
  have hname : pathlibName s = s := by
    have h := pathlibName_intercalate [s] (by simp) (by simp [hs1, hs2, hs3])
    rw [show List.intercalate ['/'] [s] = s by simp [List.intercalate]] at h
    rw [h]
    rfl
  have hbase : path_basename (R ++ ':' :: s) = some s := by
    unfold path_basename
    rw [hsr]
    show some (pathlibName s) = some s
    rw [hname]
  have hdir : path_dirname (R ++ ':' :: s) = some (R ++ [':']) := by
    unfold path_dirname
    rw [hsr]
    simp [hstrip, hs1, splitAllChar_no_sep '/' s hs3]
  have hsr2 : split_remote (R ++ [':']) = some (R, []) :=
    split_remote_append R [] hR (by intro d hd; simp at hd)
  unfold joinDirnameBasename
  rw [hdir, hbase]
  show join_remote (R ++ [':']) s = some (R ++ ':' :: s)
  unfold join_remote
  rw [hsr2]
  simp [hstrip, hs1]

theorem roundTrip_concat (R : Str) (init : List Str) (z : Str) (hR : ':' ∉ R)
    (hinit : init ≠ [])
    (hsegs : ∀ s ∈ init ++ [z], s ≠ [] ∧ s ≠ ['.'] ∧ '/' ∉ s) :
    joinDirnameBasename (R ++ ':' :: List.intercalate ['/'] (init ++ [z])) =
      some (R ++ ':' :: List.intercalate ['/'] (init ++ [z])) := by
  obtain ⟨i0, irest, rfl⟩ : ∃ i0 irest, init = i0 :: irest := by
    cases init with
    | nil => cases hinit rfl
    | cons a b => exact ⟨a, b, rfl⟩
  simp only [List.cons_append]
  obtain ⟨h01, h02, h03⟩ := hsegs i0 (by simp)
  obtain ⟨hz1, hz2, hz3⟩ := hsegs z (by simp)
  have hqhead : ∀ d, (List.intercalate ['/'] (i0 :: (irest ++ [z]))).head? = some d → ¬d = '/' :=
    intercalate_head_not_slash i0 (irest ++ [z]) h01 h03
  have hsr : split_remote (R ++ ':' :: List.intercalate ['/'] (i0 :: (irest ++ [z]))) =
      some (R, List.intercalate ['/'] (i0 :: (irest ++ [z]))) :=
    split_remote_append R _ hR hqhead
  have hgl : (i0 :: (irest ++ [z])).getLast (by simp) = z := by
    have h1 : (i0 :: (irest ++ [z])).getLast? = some z := by
      rw [show i0 :: (irest ++ [z]) = (i0 :: irest) ++ [z] by simp]
      exact List.getLast?_concat _
    have h2 := List.getLast?_eq_getLast (i0 :: (irest ++ [z])) (by simp)
    rw [h1] at h2
    exact (Option.some_inj.mp h2).symm
  have hname : pathlibName (List.intercalate ['/'] (i0 :: (irest ++ [z]))) = z := by
    have h := pathlibName_intercalate (i0 :: (irest ++ [z])) (by simp)
      (fun s hs => hsegs s (by simpa using hs))
    exact h.trans hgl
  have hbase : path_basename (R ++ ':' :: List.intercalate ['/'] (i0 :: (irest ++ [z]))) =
      some z := by
    unfold path_basename
    rw [hsr]
    show some (pathlibName (List.intercalate ['/'] (i0 :: (irest ++ [z])))) = some z
    rw [hname]
  obtain ⟨d0, hd0, hd0s⟩ := intercalate_getLast (i0 :: (irest ++ [z])) (by simp)
    (fun s hs => ⟨(hsegs s (by simpa using hs)).1, (hsegs s (by simpa using hs)).2.2⟩)
  have hqlast : ∀ d, (List.intercalate ['/'] (i0 :: (irest ++ [z]))).getLast? = some d →
      ¬d = '/' := by
    intro d hd
    rw [hd0] at hd
    injection hd with hd
    subst hd
    exact hd0s
  have hstripq : stripChar '/' (List.intercalate ['/'] (i0 :: (irest ++ [z]))) =
      List.intercalate ['/'] (i0 :: (irest ++ [z])) := by
    unfold stripChar
    rw [lstripChar_eq_self_of_head '/' _ hqhead]
    exact rstripChar_eq_self_of_getLast '/' _ hqlast
  have hqne : List.intercalate ['/'] (i0 :: (irest ++ [z])) ≠ [] := by
    intro h
    rw [h] at hd0
    simp at hd0
  have hparts := splitAllChar_intercalate (i0 :: (irest ++ [z])) (by simp)
    (fun s hs => (hsegs s (by simpa using hs)).2.2)
  have hdrop : (i0 :: (irest ++ [z])).dropLast = i0 :: irest := by
    rw [show i0 :: (irest ++ [z]) = (i0 :: irest) ++ [z] by simp]
    exact List.dropLast_concat
  have hlen : (i0 :: (irest ++ [z])).length ≠ 1 := by
    simp
  have hdir : path_dirname (R ++ ':' :: List.intercalate ['/'] (i0 :: (irest ++ [z]))) =
      some (R ++ ':' :: List.intercalate ['/'] (i0 :: irest)) := by
    unfold path_dirname
    rw [hsr]
    simp [hstripq, hqne, hparts, hlen, hdrop]
  have hqihead : ∀ d, (List.intercalate ['/'] (i0 :: irest)).head? = some d → ¬d = '/' :=
    intercalate_head_not_slash i0 irest h01 h03
  have hsr2 : split_remote (R ++ ':' :: List.intercalate ['/'] (i0 :: irest)) =
      some (R, List.intercalate ['/'] (i0 :: irest)) :=
    split_remote_append R _ hR hqihead
  obtain ⟨d1, hd1, hd1s⟩ := intercalate_getLast (i0 :: irest) (by simp)
    (fun s hs => ⟨(hsegs s (List.mem_append.mpr (Or.inl hs))).1,
                  (hsegs s (List.mem_append.mpr (Or.inl hs))).2.2⟩)
  have hqine : List.intercalate ['/'] (i0 :: irest) ≠ [] := by
    intro h
    rw [h] at hd1
    simp at hd1
  have hrstripqi : rstripChar '/' (List.intercalate ['/'] (i0 :: irest)) =
      List.intercalate ['/'] (i0 :: irest) := by
    apply rstripChar_eq_self_of_getLast
    intro d hd
    rw [hd1] at hd
    injection hd with hd
    subst hd
    exact hd1s
  have hstripz : stripChar '/' z = z := stripChar_eq_self_of_not_mem '/' z hz3
  have hjoineq : List.intercalate ['/'] (i0 :: irest) ++ '/' :: z =
      List.intercalate ['/'] (i0 :: (irest ++ [z])) := by
    have h := intercalate_concat (i0 :: irest) z (by simp)
    simp only [List.cons_append] at h
    exact h.symm
  unfold joinDirnameBasename
  rw [hdir, hbase]
  show join_remote (R ++ ':' :: List.intercalate ['/'] (i0 :: irest)) z =
    some (R ++ ':' :: List.intercalate ['/'] (i0 :: (irest ++ [z])))
  unfold join_remote
  rw [hsr2]
  simp [hqine, hz1, hrstripqi, hstripz, hjoineq]

/-- C4 (amended): for a remote path in canonical form — `R:p` with a
colon-free remote name and `p` a non-empty slash-join of segments that are
non-empty, not `.`, and slash-free — the round trip
`join_remote (path_dirname P) (path_basename P) = P` holds. The law as
originally quantified (any colon-bearing string with non-empty basename)
fails on non-canonical paths such as `R:/a`, see the counterexample. -/
theorem roundTrip_canonical (R : Str) (segs : List Str) (hR : ':' ∉ R) (hne : segs ≠ [])
    (hsegs : ∀ s ∈ segs, s ≠ [] ∧ s ≠ ['.'] ∧ '/' ∉ s) :
    joinDirnameBasename (R ++ ':' :: List.intercalate ['/'] segs) =
      some (R ++ ':' :: List.intercalate ['/'] segs) := by
  rcases List.eq_nil_or_concat segs with rfl | ⟨init, z, rfl⟩
  · cases hne rfl
  · rw [List.concat_eq_append] at hsegs ⊢
    cases init with
    | nil =>
      simp only [List.nil_append] at hsegs ⊢
      obtain ⟨h1, h2, h3⟩ := hsegs z (by simp)
      rw [show List.intercalate ['/'] [z] = z by simp [List.intercalate]]
      exact roundTrip_single R z hR h1 h2 h3
    | cons i0 irest =>
      exact roundTrip_concat R (i0 :: irest) z hR (by simp) hsegs

/-- Witness for C4 (amended): the canonical two-segment path `s3:a/b`
round-trips to itself. -/
theorem roundTrip_canonical_witness :
    joinDirnameBasename ("s3".toList ++ ':' :: List.intercalate ['/'] [['a'], ['b']]) =
      some ("s3".toList ++ ':' :: List.intercalate ['/'] [['a'], ['b']]) :=
  roundTrip_canonical "s3".toList [['a'], ['b']] (by decide) (by decide) (by decide)

/-- Counterexample to C4 as stated: `R:/a` contains a colon and has the
non-empty basename `a`, yet `join_remote (path_dirname P) (path_basename P)`
returns the canonical `R:a`, not `P`. -/
theorem roundTrip_noncanonical_cex :
    ':' ∈ "R:/a".toList ∧
    path_basename "R:/a".toList = some ['a'] ∧
    joinDirnameBasename "R:/a".toList = some "R:a".toList ∧
    joinDirnameBasename "R:/a".toList ≠ some "R:/a".toList := by
  refine ⟨by decide, by decide, by decide, by decide⟩
